import Mathlib

/-!
# Verification of the chess engine (`src/main.rs`)

A shallow embedding of the chess-rules engine and its randomized game-tree
move selector, together with proofs settling the specification claims.

Modelling conventions:
* `Square` stores the two board indexes (`file`, `rank`), each a `Fin 8`,
  exactly the values produced by the Rust `Square::indexes` (file `'a'` ↦ 0,
  …, `'h'` ↦ 7; rank `1` ↦ 0, …, rank `8` ↦ 7).  The Rust struct stores the
  `char`/`u8` pair and panics in `indexes` on values outside the board; the
  documented invariant is that every constructed `Square` is in range, so the
  embedding carries the invariant in the type.  The Rust rank literals `7`
  and `2` in the pawn generator correspond to rank indexes `6` and `1`.
* Rust functions that can panic are embedded as `Option`-valued functions,
  `none` meaning a panic: `Square::in_between` on non-aligned squares,
  `Board::status` (and hence `score`) when no king is on the board, the
  `depth - 1` usize underflow in `exec_random_moves` (debug overflow
  semantics), and the propagation of any of these through `legal_moves`,
  `GameTreeNode` construction, expansion and selection.
* The unbounded Rust `while` walks (`ray` scans of sliding pieces, the
  `in_between` walk) are embedded with a fuel of `8`: a unit-direction walk
  on an 8×8 board moves at least one coordinate per step, so it ends (at the
  board edge, resp. at the aligned target) after at most 7 steps and the
  fuel is never exhausted on the calls the program makes.
* The `f64` scores of `avg_score` are modelled as exact rationals `ℚ`; the
  sums and divisions involved are the same arithmetic expressions.
* The random shuffle of `GameTreeNode::new` is a parameter
  `shuffle : List Move → List Move`; theorems that need it assume it
  permutes its input.  The `CpuPool` fan-out of `exec_random_moves` only
  affects scheduling, not the resulting tree (both branches build the same
  children), so expansion is modelled by the sequential branch; the
  `HashMap` of children is modelled as an association list in insertion
  order.
-/

inductive Color where
  | Black
  | White
deriving DecidableEq, Repr, Fintype

def Color.other : Color → Color
  | Color.Black => Color.White
  | Color.White => Color.Black

inductive Piece where
  | Bishop
  | Empty
  | King
  | Knight
  | Pawn
  | Queen
  | Rook
deriving DecidableEq, Repr, Fintype

def Piece.value : Piece → Nat
  | Piece.Empty | Piece.King => 0
  | Piece.Bishop | Piece.Knight => 3
  | Piece.Pawn => 1
  | Piece.Queen => 9
  | Piece.Rook => 5

abbrev ColorPiece := Color × Piece

def EMPTY : ColorPiece := (Color.White, Piece.Empty)

/-- A board square, stored by its `(file, rank)` indexes (see module header). -/
@[ext] structure Square where
  file : Fin 8
  rank : Fin 8
deriving DecidableEq, Repr, Fintype

/-- `Square::neighboor`: offset by the given deltas, `none` when the result
leaves the board. -/
def Square.neighboor (s : Square) (i_delta j_delta : Int) : Option Square :=
  let move_i : Int := ((s.file : ℕ) : Int) + i_delta
  let move_j : Int := ((s.rank : ℕ) : Int) + j_delta
  if h : 0 ≤ move_i ∧ move_i ≤ 7 ∧ 0 ≤ move_j ∧ move_j ≤ 7 then
    some ⟨⟨move_i.toNat, by omega⟩, ⟨move_j.toNat, by omega⟩⟩
  else
    none

def Square.left (s : Square) : Option Square := s.neighboor (-1) 0

def Square.right (s : Square) : Option Square := s.neighboor 1 0

def Square.up (s : Square) : Option Square := s.neighboor 0 1

def Square.down (s : Square) : Option Square := s.neighboor 0 (-1)

def Square.up_left (s : Square) : Option Square := s.neighboor (-1) 1

def Square.up_right (s : Square) : Option Square := s.neighboor 1 1

def Square.down_left (s : Square) : Option Square := s.neighboor (-1) (-1)

def Square.down_right (s : Square) : Option Square := s.neighboor 1 (-1)

/-- The walk of `Square::in_between`: step from `cur` by the unit direction
until `target` is reached, collecting the squares passed.  Running off the
board is the Rust `unreachable!()` panic (`none`); the fuel of 8 is never
exhausted before reaching an aligned target. -/
def between_walk (cur : Square) (i_dir j_dir : Int) (target : Square) : Nat → Option (List Square)
  | 0 => none
  | fuel + 1 =>
    match cur.neighboor i_dir j_dir with
    | none => none
    | some sq =>
      if sq = target then some []
      else (between_walk sq i_dir j_dir target fuel).map (fun l => sq :: l)

/-- `Square::in_between`: the squares strictly between two aligned squares;
`none` is the panic on a non-aligned pair. -/
def Square.in_between (s other : Square) : Option (List Square) :=
  let i_delta : Int := ((other.file : ℕ) : Int) - ((s.file : ℕ) : Int)
  let j_delta : Int := ((other.rank : ℕ) : Int) - ((s.rank : ℕ) : Int)
  if ¬(i_delta = 0 ∨ j_delta = 0 ∨ i_delta.natAbs = j_delta.natAbs) then
    none
  else
    let i_dir : Int := if i_delta = 0 then 0 else i_delta / (i_delta.natAbs : Int)
    let j_dir : Int := if j_delta = 0 then 0 else j_delta / (j_delta.natAbs : Int)
    between_walk s i_dir j_dir other 8

abbrev Move := Square × Square

/-- A `while let Some(sq) = current.step()` scan of `available_moves`: walk in
one direction to the board edge, collecting every square passed.  Fuel 8 is
never exhausted (at most 7 steps fit on the board). -/
def ray (start : Square) (i_delta j_delta : Int) : Nat → List Square
  | 0 => []
  | fuel + 1 =>
    match start.neighboor i_delta j_delta with
    | none => []
    | some sq => sq :: ray sq i_delta j_delta fuel

/-- The four diagonal scans of the `Bishop` arm of `available_moves`
(up-left, up-right, down-left, down-right, in source order). -/
def bishop_moves (square : Square) : List Square :=
  ray square (-1) 1 8 ++ ray square 1 1 8 ++ ray square (-1) (-1) 8 ++ ray square 1 (-1) 8

/-- The four orthogonal scans of the `Rook` arm of `available_moves`
(left, right, up, down, in source order). -/
def rook_moves (square : Square) : List Square :=
  ray square (-1) 0 8 ++ ray square 1 0 8 ++ ray square 0 1 8 ++ ray square 0 (-1) 8

/-- `available_moves`: the geometrically possible destinations of a piece,
ignoring occupancy.  The `Queen` arm is the `Rook` arm followed by the
`Bishop` arm, as in the source (which calls `available_moves` recursively on
those two pieces). -/
def available_moves (square : Square) (piece : ColorPiece) : List Square :=
  match piece with
  | (_, Piece.Bishop) => bishop_moves square
  | (_, Piece.Empty) => []
  | (_, Piece.King) =>
    [square.left, square.right, square.up, square.down,
     square.up_left, square.up_right, square.down_left, square.down_right].filterMap id
  | (_, Piece.Knight) =>
    [square.neighboor 2 1, square.neighboor 2 (-1), square.neighboor (-2) 1,
     square.neighboor (-2) (-1), square.neighboor 1 2, square.neighboor 1 (-2),
     square.neighboor (-1) 2, square.neighboor (-1) (-2)].filterMap id
  | (color, Piece.Pawn) =>
    match color with
    | Color.Black =>
      ([square.down, square.down_left, square.down_right]
        ++ (if square.rank = 6 then [square.neighboor 0 (-2)] else [])).filterMap id
    | Color.White =>
      ([square.up, square.up_left, square.up_right]
        ++ (if square.rank = 1 then [square.neighboor 0 2] else [])).filterMap id
  | (_, Piece.Queen) => rook_moves square ++ bishop_moves square
  | (_, Piece.Rook) => rook_moves square

inductive GameStatus where
  | InPlay
  | Finished (winner : Color)
deriving DecidableEq, Repr

/-- The 8×8 occupancy grid, addressed by `(file index, rank index)`. -/
@[ext] structure Board where
  squares : Fin 8 → Fin 8 → ColorPiece

def Board.get (b : Board) (square : Square) : ColorPiece :=
  b.squares square.file square.rank

/-- `Board::set`: overwrite one square (the Rust in-place assignment,
embedded as a functional update). -/
def Board.set (b : Board) (square : Square) (piece : ColorPiece) : Board :=
  ⟨fun i j => if i = square.file ∧ j = square.rank then piece else b.squares i j⟩

/-- The iteration order `squares.iter().flat_map(|c| c)` of the Rust folds:
files outer, ranks inner. -/
def Board.allOccupants (b : Board) : List ColorPiece :=
  (List.finRange 8).flatMap (fun i => (List.finRange 8).map (fun j => b.squares i j))

/-- `Board::status`: scan for kings; `none` is the
`panic!("Invalid game state: no kings found")`. -/
def Board.status (b : Board) : Option GameStatus :=
  let kings := b.allOccupants.foldl
    (fun acc cp =>
      match cp.1 with
      | Color.Black => (acc.1, acc.2 || decide (cp.2 = Piece.King))
      | Color.White => (acc.1 || decide (cp.2 = Piece.King), acc.2))
    (false, false)
  match kings with
  | (true, true) => some GameStatus.InPlay
  | (true, false) => some (GameStatus.Finished Color.White)
  | (false, true) => some (GameStatus.Finished Color.Black)
  | (false, false) => none

/-- `Board::score`: the decisive `(100, 0)`/`(0, 100)` pair when the game is
finished, otherwise the material totals `(white, black)`; `none` propagates
the `status` panic. -/
def Board.score (b : Board) : Option (Nat × Nat) :=
  match b.status with
  | none => none
  | some (GameStatus.Finished Color.Black) => some (0, 100)
  | some (GameStatus.Finished Color.White) => some (100, 0)
  | some GameStatus.InPlay =>
    some (b.allOccupants.foldl
      (fun acc cp =>
        match cp.1 with
        | Color.Black => (acc.1, acc.2 + cp.2.value)
        | Color.White => (acc.1 + cp.2.value, acc.2))
      (0, 0))

/-- `Board::exec_move`: clear `from_sq`, then write its former occupant to
`to_sq`.  Unconditional; no legality check. -/
def Board.exec_move (b : Board) (from_sq to_sq : Square) : Board :=
  let from_piece := b.get from_sq
  (b.set from_sq EMPTY).set to_sq from_piece

/-- `Board::is_legal`: the occupancy / capture-direction / blocking filter;
`none` is the panic of `in_between` on a non-aligned pair. -/
def Board.is_legal (b : Board) (from_sq to_sq : Square) : Option Bool :=
  let fcp := b.get from_sq
  let tcp := b.get to_sq
  if fcp.1 = tcp.1 ∧ tcp.2 ≠ Piece.Empty then some false
  else if fcp.2 = Piece.Pawn ∧ from_sq.file = to_sq.file ∧ tcp.2 ≠ Piece.Empty then some false
  else if fcp.2 = Piece.Pawn ∧ from_sq.file ≠ to_sq.file ∧ tcp.2 = Piece.Empty then some false
  else if fcp.2 ≠ Piece.Knight then
    match from_sq.in_between to_sq with
    | none => none
    | some l =>
      if l.filter (fun sq => decide ((b.get sq).2 ≠ Piece.Empty)) ≠ [] then some false
      else some true
  else some true

/-- The `filter(|(from, to)| self.is_legal(from, to))` stage of
`legal_moves`, propagating an `is_legal` panic. -/
def legal_filter (b : Board) : List Move → Option (List Move)
  | [] => some []
  | mv :: rest =>
    match b.is_legal mv.1 mv.2 with
    | none => none
    | some true => (legal_filter b rest).map (fun l => mv :: l)
    | some false => legal_filter b rest

/-- `Board::legal_moves`: enumerate the squares of the given color, generate
their geometric destinations, keep the ones passing `is_legal`. -/
def Board.legal_moves (b : Board) (color : Color) : Option (List Move) :=
  let pieces := (List.finRange 8).flatMap
    (fun i => (List.finRange 8).map (fun j => (Square.mk i j, b.squares i j)))
  let own := pieces.filter (fun sp => decide (sp.2.1 = color))
  let candidates := own.flatMap
    (fun sp => (available_moves sp.1 sp.2).map (fun dest => (sp.1, dest)))
  legal_filter b candidates

def Board.add_bishops (b : Board) (color : Color) : Board :=
  match color with
  | Color.Black => (b.set ⟨2, 7⟩ (Color.Black, Piece.Bishop)).set ⟨5, 7⟩ (Color.Black, Piece.Bishop)
  | Color.White => (b.set ⟨2, 0⟩ (Color.White, Piece.Bishop)).set ⟨5, 0⟩ (Color.White, Piece.Bishop)

def Board.add_king (b : Board) (color : Color) : Board :=
  match color with
  | Color.Black => b.set ⟨4, 7⟩ (Color.Black, Piece.King)
  | Color.White => b.set ⟨4, 0⟩ (Color.White, Piece.King)

def Board.add_knights (b : Board) (color : Color) : Board :=
  match color with
  | Color.Black => (b.set ⟨1, 7⟩ (Color.Black, Piece.Knight)).set ⟨6, 7⟩ (Color.Black, Piece.Knight)
  | Color.White => (b.set ⟨1, 0⟩ (Color.White, Piece.Knight)).set ⟨6, 0⟩ (Color.White, Piece.Knight)

def Board.add_pawns (b : Board) (color : Color) : Board :=
  match color with
  | Color.Black => (List.finRange 8).foldl (fun bd i => bd.set ⟨i, 6⟩ (Color.Black, Piece.Pawn)) b
  | Color.White => (List.finRange 8).foldl (fun bd i => bd.set ⟨i, 1⟩ (Color.White, Piece.Pawn)) b

def Board.add_queen (b : Board) (color : Color) : Board :=
  match color with
  | Color.Black => b.set ⟨3, 7⟩ (Color.Black, Piece.Queen)
  | Color.White => b.set ⟨3, 0⟩ (Color.White, Piece.Queen)

def Board.add_rooks (b : Board) (color : Color) : Board :=
  match color with
  | Color.Black => (b.set ⟨0, 7⟩ (Color.Black, Piece.Rook)).set ⟨7, 7⟩ (Color.Black, Piece.Rook)
  | Color.White => (b.set ⟨0, 0⟩ (Color.White, Piece.Rook)).set ⟨7, 0⟩ (Color.White, Piece.Rook)

/-- `Board::new`: the standard starting position, built by the same sequence
of placements as the source. -/
def Board.new : Board :=
  [Color.Black, Color.White].foldl
    (fun bd c => (((((bd.add_bishops c).add_pawns c).add_king c).add_knights c).add_queen c).add_rooks c)
    ⟨fun _ _ => EMPTY⟩

-- sanity examples (spec §8)
example : available_moves ⟨4, 3⟩ (Color.White, Piece.King) =
    [⟨3, 3⟩, ⟨5, 3⟩, ⟨4, 4⟩, ⟨4, 2⟩, ⟨3, 4⟩, ⟨5, 4⟩, ⟨3, 2⟩, ⟨5, 2⟩] := by decide

example : available_moves ⟨0, 0⟩ (Color.White, Piece.Knight) = [⟨2, 1⟩, ⟨1, 2⟩] := by decide

example : Board.new.status = some GameStatus.InPlay := by decide

example : Board.new.score = some (39, 39) := by decide

example : ((Board.new.legal_moves Color.White).getD []).length = 20 := by decide

/-- One sampled position of the search tree: the board, the side to move,
the branching budget (the Rust `size` field), and the sampled children,
keyed by move, `none` until realized (`HashMap<Move, Option<GameTreeNode>>`
as an association list in insertion order). -/
inductive GameTreeNode where
  | mk (board : Board) (turn : Color) (size : Nat)
       (children : List (Move × Option GameTreeNode))

def GameTreeNode.board : GameTreeNode → Board
  | .mk b _ _ _ => b

def GameTreeNode.turn : GameTreeNode → Color
  | .mk _ t _ _ => t

def GameTreeNode.size : GameTreeNode → Nat
  | .mk _ _ s _ => s

def GameTreeNode.children : GameTreeNode → List (Move × Option GameTreeNode)
  | .mk _ _ _ c => c

/-- The realized children of a node: the `executed` list collected by
`size()` and `avg_score()`. -/
def realizedChildren (n : GameTreeNode) : List GameTreeNode :=
  n.children.filterMap Prod.snd

/-- `GameTreeNode::new`: legal moves of the side to move, shuffled, first
`size` of them as unrealized children.  `none` propagates a `legal_moves`
panic. -/
def GameTreeNode.new (shuffle : List Move → List Move) (board : Board) (turn : Color)
    (size : Nat) : Option GameTreeNode :=
  match board.legal_moves turn with
  | none => none
  | some lm =>
    some (GameTreeNode.mk board turn size (((shuffle lm).take size).map (fun m => (m, none))))

/-- The node's own differential score for `color`, as computed inside
`avg_score` from `Board::score` (`none` propagates the `score` panic). -/
def diff_score (b : Board) (color : Color) : Option ℚ :=
  match b.score with
  | none => none
  | some sc =>
    match color with
    | Color.Black => some ((sc.2 : ℚ) - (sc.1 : ℚ))
    | Color.White => some ((sc.1 : ℚ) - (sc.2 : ℚ))

mutual

/-- `GameTreeNode::avg_score`: own differential score if no child is
realized, otherwise `(own + sum of the realized children's avg_scores) /
(1 + their number)`; the dead `count == 0 → -100` branch of the source is
kept.  `none` propagates a `score` panic anywhere in the tree. -/
def avg_score : GameTreeNode → Color → Option ℚ
  | .mk b _ _ children, color =>
    match diff_score b color with
    | none => none
    | some score =>
      match avg_list children color with
      | none => none
      | some qs =>
        if qs.isEmpty then some score
        else
          let sc := qs.foldl (fun acc q => (acc.1 + q, acc.2 + 1)) (score, (1 : ℕ))
          if sc.2 = 0 then some (-100) else some (sc.1 / (sc.2 : ℚ))

/-- The `avg_score` values of the realized children of a children list
(`executed.iter().map(|node| node.avg_score(color))`). -/
def avg_list : List (Move × Option GameTreeNode) → Color → Option (List ℚ)
  | [], _ => some []
  | (_, none) :: rest, color => avg_list rest color
  | (_, some n) :: rest, color =>
    match avg_score n color, avg_list rest color with
    | some q, some qs => some (q :: qs)
    | _, _ => none

end

/-- One child step of `exec_random_moves`: `exec_move` the key, build the
child node with the halved budget and opposite mover, expand it with `f`
(the recursive expansion at the decremented depth).  `none` is a panicked
unit of work (fatal to the whole call, as in the source). -/
def exec_children (f : GameTreeNode → Option GameTreeNode) (shuffle : List Move → List Move)
    (b : Board) (color : Color) (runs : Nat) :
    List (Move × Option GameTreeNode) → Option (List (Move × Option GameTreeNode))
  | [] => some []
  | (m, _) :: rest =>
    match GameTreeNode.new shuffle (b.exec_move m.1 m.2) color runs with
    | none => none
    | some child =>
      match f child, exec_children f shuffle b color runs rest with
      | some expanded, some rest' => some ((m, some expanded) :: rest')
      | _, _ => none

/-- `GameTreeNode::exec_random_moves` (depth argument first; the two depth
arms share the leading status check of the source): do nothing on a finished
board; `none` at `depth == 0` is the `depth - 1` usize underflow panic (the
source checks `new_depth == 0` only after decrementing); at `new_depth == 0`
(`new_depth` is the depth predecessor) do nothing; otherwise realize every
child at the decremented depth with budget `size / 2` and mover
`turn.other()`. -/
def exec_random_moves (shuffle : List Move → List Move) :
    Nat → GameTreeNode → Option GameTreeNode
  | 0, n =>
    match n.board.status with
    | none => none
    | some (GameStatus.Finished _) => some n
    | some GameStatus.InPlay => none
  | new_depth + 1, n =>
    match n.board.status with
    | none => none
    | some (GameStatus.Finished _) => some n
    | some GameStatus.InPlay =>
      let runs := n.size / 2
      let color := n.turn.other
      if new_depth = 0 then some n
      else
        match exec_children (exec_random_moves shuffle new_depth) shuffle n.board color runs
            n.children with
        | none => none
        | some children' => some (GameTreeNode.mk n.board n.turn n.size children')

/-- The selection loop of `next_move` over the root's children: track the
maximal `avg_score` seen (starting from `-1000.0`) and the corresponding
move; skip unrealized children; `none` propagates an `avg_score` panic.
(The `size()` accumulation of the source is reporting only and is not
modelled.) -/
def select_loop (color : Color) :
    List (Move × Option GameTreeNode) → ℚ → Option Move → Option (ℚ × Option Move)
  | [], max_avg, result => some (max_avg, result)
  | (_, none) :: rest, max_avg, result => select_loop color rest max_avg result
  | (m, some n) :: rest, max_avg, result =>
    match avg_score n color with
    | none => none
    | some q =>
      if max_avg < q then select_loop color rest q (some m)
      else select_loop color rest max_avg result

/-- The root tree built by `next_move`: `GameTreeNode::new(board, turn, 64)`
expanded by `exec_random_moves(5, Some(pool))`. -/
def rootTree (shuffle : List Move → List Move) (board : Board) (turn : Color) :
    Option GameTreeNode :=
  match GameTreeNode.new shuffle board turn 64 with
  | none => none
  | some t => exec_random_moves shuffle 5 t

/-- `next_move`: build and expand the root tree, then return the realized
child move with the strictly greatest `avg_score(turn)`.  `some none` is the
"no move" outcome; the outer `none` is a panic. -/
def next_move (shuffle : List Move → List Move) (board : Board) (turn : Color) :
    Option (Option Move) :=
  match rootTree shuffle board turn with
  | none => none
  | some t =>
    match select_loop turn t.children (-1000) none with
    | none => none
    | some res => some res.2

-- structural-reduction sanity checks for the tree layer
example :
    exec_random_moves id 0 (GameTreeNode.mk Board.new Color.White 0 []) = none := rfl

example :
    exec_random_moves id 1 (GameTreeNode.mk Board.new Color.White 0 []) =
      some (GameTreeNode.mk Board.new Color.White 0 []) := rfl

/-! ## Boards used as concrete inputs in witnesses and counterexamples -/

/-- Two lone kings (white a1, black h8); the game is in play. -/
def kingsBoard : Board :=
  ((⟨fun _ _ => EMPTY⟩ : Board).set ⟨0, 0⟩ (Color.White, Piece.King)).set
    ⟨7, 7⟩ (Color.Black, Piece.King)

/-- `kingsBoard` plus one white pawn: material differential `+1` for White. -/
def kingsBoardP1 : Board := kingsBoard.set ⟨4, 4⟩ (Color.White, Piece.Pawn)

/-- `kingsBoard` plus two white pawns: material differential `+2` for White. -/
def kingsBoardP2 : Board := kingsBoardP1.set ⟨5, 4⟩ (Color.White, Piece.Pawn)

/-- A board with only the white king: the game is finished. -/
def lonelyKingBoard : Board :=
  (⟨fun _ _ => EMPTY⟩ : Board).set ⟨4, 0⟩ (Color.White, Piece.King)

/-- White Kh8, Pg8, Pg7, Ph7 (all without a legal move), Pb6; black Ka7,
Pb7.  White's single legal move is the pawn capture b6×a7 of the black
king. -/
def pinBoard : Board :=
  ((((((⟨fun _ _ => EMPTY⟩ : Board).set ⟨7, 7⟩ (Color.White, Piece.King)).set
    ⟨6, 7⟩ (Color.White, Piece.Pawn)).set ⟨6, 6⟩ (Color.White, Piece.Pawn)).set
    ⟨7, 6⟩ (Color.White, Piece.Pawn)).set ⟨1, 5⟩ (Color.White, Piece.Pawn)).set
    ⟨0, 6⟩ (Color.Black, Piece.King) |>.set ⟨1, 6⟩ (Color.Black, Piece.Pawn)

/-! ## C6 / C10: the effect of `exec_move` -/

/-- C6.  `exec_move` with distinct source and destination empties the
source, moves the source's former occupant to the destination, and touches
no other square.  The source board value is unchanged (the embedding is
pure, as is the Rust function, which copies `self` and returns the copy). -/
theorem exec_move_frame (b : Board) (s t : Square) (h : s ≠ t) :
    (b.exec_move s t).get s = EMPTY ∧
    (b.exec_move s t).get t = b.get s ∧
    ∀ u : Square, u ≠ s → u ≠ t → (b.exec_move s t).get u = b.get u := by
  refine ⟨?_, ?_, ?_⟩
  · have hne : ¬(s.file = t.file ∧ s.rank = t.rank) := by
      intro hc
      exact h (Square.ext hc.1 hc.2)
    simp [Board.exec_move, Board.set, Board.get, hne]
  · simp [Board.exec_move, Board.set, Board.get]
  · intro u hus hut
    have hne1 : ¬(u.file = t.file ∧ u.rank = t.rank) := by
      intro hc
      exact hut (Square.ext hc.1 hc.2)
    have hne2 : ¬(u.file = s.file ∧ u.rank = s.rank) := by
      intro hc
      exact hus (Square.ext hc.1 hc.2)
    simp [Board.exec_move, Board.set, Board.get, hne1, hne2]

/-- Witness for C6 at a concrete input: moving the a2 pawn to a3 on the
starting position. -/
theorem exec_move_frame_witness :
    (Board.new.exec_move ⟨0, 1⟩ ⟨0, 2⟩).get ⟨0, 1⟩ = EMPTY ∧
    (Board.new.exec_move ⟨0, 1⟩ ⟨0, 2⟩).get ⟨0, 2⟩ = Board.new.get ⟨0, 1⟩ ∧
    ∀ u : Square, u ≠ ⟨0, 1⟩ → u ≠ ⟨0, 2⟩ →
      (Board.new.exec_move ⟨0, 1⟩ ⟨0, 2⟩).get u = Board.new.get u :=
  exec_move_frame Board.new ⟨0, 1⟩ ⟨0, 2⟩ (by decide)

/-- C10.  The degenerate move whose source and destination coincide leaves
the board unchanged: the square is cleared and then rewritten with its
prior occupant. -/
theorem exec_move_self (b : Board) (s : Square) : b.exec_move s s = b := by
  apply Board.ext
  funext i j
  simp only [Board.exec_move, Board.set, Board.get]
  by_cases h : i = s.file ∧ j = s.rank
  · simp [h]
  · simp [h]

/-! ## C9: the starting position has exactly the 20 standard opening moves -/

/-- The 16 pawn single/double advances and 4 knight moves available to
White on the starting position (files a–h are indexes 0–7; ranks 2, 3, 4
are indexes 1, 2, 3). -/
def start_moves : List Move :=
  [(⟨0, 1⟩, ⟨0, 2⟩), (⟨0, 1⟩, ⟨0, 3⟩),
   (⟨1, 1⟩, ⟨1, 2⟩), (⟨1, 1⟩, ⟨1, 3⟩),
   (⟨2, 1⟩, ⟨2, 2⟩), (⟨2, 1⟩, ⟨2, 3⟩),
   (⟨3, 1⟩, ⟨3, 2⟩), (⟨3, 1⟩, ⟨3, 3⟩),
   (⟨4, 1⟩, ⟨4, 2⟩), (⟨4, 1⟩, ⟨4, 3⟩),
   (⟨5, 1⟩, ⟨5, 2⟩), (⟨5, 1⟩, ⟨5, 3⟩),
   (⟨6, 1⟩, ⟨6, 2⟩), (⟨6, 1⟩, ⟨6, 3⟩),
   (⟨7, 1⟩, ⟨7, 2⟩), (⟨7, 1⟩, ⟨7, 3⟩),
   (⟨1, 0⟩, ⟨0, 2⟩), (⟨1, 0⟩, ⟨2, 2⟩),
   (⟨6, 0⟩, ⟨5, 2⟩), (⟨6, 0⟩, ⟨7, 2⟩)]

/-- The move list `Board::new().legal_moves(White)` actually produces, in
the traversal order of the embedding (files outer, ranks inner). -/
def start_moves_produced : List Move :=
  [(⟨0, 1⟩, ⟨0, 2⟩), (⟨0, 1⟩, ⟨0, 3⟩),
   (⟨1, 0⟩, ⟨2, 2⟩), (⟨1, 0⟩, ⟨0, 2⟩),
   (⟨1, 1⟩, ⟨1, 2⟩), (⟨1, 1⟩, ⟨1, 3⟩),
   (⟨2, 1⟩, ⟨2, 2⟩), (⟨2, 1⟩, ⟨2, 3⟩),
   (⟨3, 1⟩, ⟨3, 2⟩), (⟨3, 1⟩, ⟨3, 3⟩),
   (⟨4, 1⟩, ⟨4, 2⟩), (⟨4, 1⟩, ⟨4, 3⟩),
   (⟨5, 1⟩, ⟨5, 2⟩), (⟨5, 1⟩, ⟨5, 3⟩),
   (⟨6, 0⟩, ⟨7, 2⟩), (⟨6, 0⟩, ⟨5, 2⟩),
   (⟨6, 1⟩, ⟨6, 2⟩), (⟨6, 1⟩, ⟨6, 3⟩),
   (⟨7, 1⟩, ⟨7, 2⟩), (⟨7, 1⟩, ⟨7, 3⟩)]

set_option maxRecDepth 2000 in
/-- C9.  `Board::new().legal_moves(White)` succeeds and holds exactly the
20 distinct standard opening moves (16 pawn advances, 4 knight moves), none
of whose destinations holds a white piece. -/
theorem start_position_legal_moves :
    (Board.new.legal_moves Color.White).isSome = true ∧
    ((Board.new.legal_moves Color.White).getD []).length = 20 ∧
    ((Board.new.legal_moves Color.White).getD []).Nodup ∧
    (∀ m : Move, m ∈ (Board.new.legal_moves Color.White).getD [] ↔ m ∈ start_moves) ∧
    (∀ m ∈ (Board.new.legal_moves Color.White).getD [],
      ¬((Board.new.get m.2).1 = Color.White ∧ (Board.new.get m.2).2 ≠ Piece.Empty)) := by
  have hl : Board.new.legal_moves Color.White = some start_moves_produced := by decide
  rw [hl]
  simp only [Option.isSome_some, Option.getD_some]
  have h1 : List.all start_moves_produced (fun a => decide (a ∈ start_moves)) = true := by
    decide
  have h2 : List.all start_moves (fun a => decide (a ∈ start_moves_produced)) = true := by
    decide
  have h3 : List.all start_moves_produced
      (fun m => decide (¬((Board.new.get m.2).1 = Color.White ∧
        (Board.new.get m.2).2 ≠ Piece.Empty))) = true := by decide
  refine ⟨trivial, by decide, by decide, ?_, ?_⟩
  · exact fun m =>
      ⟨fun hm => of_decide_eq_true (List.all_eq_true.mp h1 m hm),
       fun hm => of_decide_eq_true (List.all_eq_true.mp h2 m hm)⟩
  · intro m hm
    exact of_decide_eq_true (List.all_eq_true.mp h3 m hm)

/-! ## C7: the pawn arm of `available_moves` -/

/-- The claim's "advancing direction" of a color: rank index increases for
White and decreases for Black. -/
def advance_dir : Color → Int
  | Color.Black => -1
  | Color.White => 1

/-- The claim's "starting rank" of a pawn: rank 2 (index 1) for White,
rank 7 (index 6) for Black. -/
def start_rank : Color → Fin 8
  | Color.Black => 6
  | Color.White => 1

set_option maxRecDepth 2000 in
/-- C7.  A square is a geometric pawn destination iff it is the on-board
one-square forward neighbor, one of the two on-board diagonal forward
neighbors (offered unconditionally), or — exactly when the pawn stands on
its color's starting rank — the two-square forward neighbor. -/
theorem pawn_available_moves_spec :
    ∀ (s : Square) (c : Color) (t : Square),
      t ∈ available_moves s (c, Piece.Pawn) ↔
        (s.neighboor 0 (advance_dir c) = some t ∨
         s.neighboor (-1) (advance_dir c) = some t ∨
         s.neighboor 1 (advance_dir c) = some t ∨
         (s.rank = start_rank c ∧ s.neighboor 0 (2 * advance_dir c) = some t)) := by
  decide

/-! ## C5: the shape of `is_legal` -/

/-- The alignment test at the top of `in_between`: the two squares share a
file, a rank, or a diagonal. -/
def aligned (s other : Square) : Bool :=
  let i_delta : Int := ((other.file : ℕ) : Int) - ((s.file : ℕ) : Int)
  let j_delta : Int := ((other.rank : ℕ) : Int) - ((s.rank : ℕ) : Int)
  decide (i_delta = 0 ∨ j_delta = 0 ∨ i_delta.natAbs = j_delta.natAbs)

set_option maxRecDepth 2000 in
theorem in_between_isSome_of_aligned :
    ∀ s t : Square, aligned s t = true → (s.in_between t).isSome = true := by
  decide

/-- The claim's description of `is_legal` as a total Boolean predicate:
reject a same-color capture, a pawn moving straight onto an occupant or
diagonally onto an empty square, and a non-knight move with an occupied
square strictly between source and destination; accept every remaining
case.  (`getD []` reads the between-list; on aligned pairs it is exactly
what `in_between` returns.) -/
def isLegalSpec (b : Board) (from_sq to_sq : Square) : Bool :=
  let fcp := b.get from_sq
  let tcp := b.get to_sq
  if fcp.1 = tcp.1 ∧ tcp.2 ≠ Piece.Empty then false
  else if fcp.2 = Piece.Pawn ∧ from_sq.file = to_sq.file ∧ tcp.2 ≠ Piece.Empty then false
  else if fcp.2 = Piece.Pawn ∧ from_sq.file ≠ to_sq.file ∧ tcp.2 = Piece.Empty then false
  else if fcp.2 ≠ Piece.Knight ∧
      ((from_sq.in_between to_sq).getD []).any
        (fun sq => decide ((b.get sq).2 ≠ Piece.Empty)) then false
  else true

/-- C5 counterexample: on the starting position, the query from a1 (the
white rook) to b3 passes the capture and pawn checks, reaches the blocking
check, and panics inside `in_between` (the pair is not aligned) — it
returns no Boolean at all, while the claim, whose conditions for `false`
all fail here, says it returns `true`. -/
theorem is_legal_counterexample :
    Board.new.is_legal ⟨0, 0⟩ ⟨1, 2⟩ = none ∧
    isLegalSpec Board.new ⟨0, 0⟩ ⟨1, 2⟩ = true := by
  decide

/-- C5 amended: restricted to aligned pairs (same file, rank, or diagonal —
every pair the move generator ever queries), `is_legal` returns exactly the
Boolean the claim describes. -/
theorem is_legal_spec_aligned (b : Board) (from_sq to_sq : Square)
    (h : aligned from_sq to_sq = true) :
    b.is_legal from_sq to_sq = some (isLegalSpec b from_sq to_sq) := by
  have hs := in_between_isSome_of_aligned from_sq to_sq h
  obtain ⟨l, hl⟩ := Option.isSome_iff_exists.mp hs
  simp only [Board.is_legal, isLegalSpec, hl]
  by_cases h1 : (b.get from_sq).1 = (b.get to_sq).1 ∧ (b.get to_sq).2 ≠ Piece.Empty
  · simp [h1]
  by_cases h2 : (b.get from_sq).2 = Piece.Pawn ∧ from_sq.file = to_sq.file ∧
      (b.get to_sq).2 ≠ Piece.Empty
  · simp [h1, h2]
  by_cases h3 : (b.get from_sq).2 = Piece.Pawn ∧ from_sq.file ≠ to_sq.file ∧
      (b.get to_sq).2 = Piece.Empty
  · simp [h1, h2, h3]
  by_cases h4 : (b.get from_sq).2 ≠ Piece.Knight
  · by_cases h5 : ∃ x ∈ l, ¬(b.get x).2 = Piece.Empty
    · simp [h1, h2, h3, h4, h5]
    · simp [h1, h2, h3, h4, h5]
  · simp [h1, h2, h3, h4]

/-- Witness for the amended C5 at a concrete input: rook a1 to a5 on the
starting position (aligned, blocked by the a2 pawn). -/
theorem is_legal_spec_aligned_witness :
    Board.new.is_legal ⟨0, 0⟩ ⟨0, 4⟩ = some (isLegalSpec Board.new ⟨0, 0⟩ ⟨0, 4⟩) :=
  is_legal_spec_aligned Board.new ⟨0, 0⟩ ⟨0, 4⟩ (by decide)

/-! ## C4: the stopping conditions of `exec_random_moves` -/

/-- A game-in-play node with budget 0 and no sampled children. -/
def c4Node : GameTreeNode := GameTreeNode.mk kingsBoard Color.White 0 []

/-- C4 counterexample: at `depth == 0` with the game still in play, the Rust
`let new_depth = depth - 1` underflows the usize (a panic under debug
overflow semantics) before the `new_depth == 0` guard is reached, so the
call does not return normally with the node unchanged. -/
theorem exec_random_moves_depth0_panics :
    c4Node.board.status = some GameStatus.InPlay ∧
    exec_random_moves id 0 c4Node = none :=
  ⟨rfl, rfl⟩

/-- C4 amended: the expansion does nothing — it returns normally with every
child still unrealized and the node unchanged — when the board's status is
Finished (at any depth), and likewise at `depth == 1`, where the decremented
depth hits the `new_depth == 0` guard (provided `status` itself does not
panic).  At `depth == 0` with the game in play the source instead underflows
`depth - 1`; the program only ever calls the function with depth ≥ 1. -/
theorem exec_random_moves_noop (shuffle : List Move → List Move) (n : GameTreeNode) (d : Nat)
    (h : (∃ w, n.board.status = some (GameStatus.Finished w)) ∨
         (d = 1 ∧ (n.board.status).isSome = true)) :
    exec_random_moves shuffle d n = some n := by
  rcases h with ⟨w, hw⟩ | ⟨hd, hs⟩
  · cases d with
    | zero => rw [show exec_random_moves shuffle 0 n =
        (match n.board.status with
         | none => none
         | some (GameStatus.Finished _) => some n
         | some GameStatus.InPlay => none) from rfl, hw]
    | succ nd => rw [exec_random_moves, hw]
  · subst hd
    obtain ⟨s, hs'⟩ := Option.isSome_iff_exists.mp hs
    cases s with
    | InPlay =>
      rw [exec_random_moves, hs']
      simp
    | Finished w =>
      rw [exec_random_moves, hs']

/-- A node whose board is already decided (only the white king remains). -/
def c4FinNode : GameTreeNode := GameTreeNode.mk lonelyKingBoard Color.Black 64 []

/-- Witness for the amended C4 at a concrete input: expanding a finished
node at depth 3 returns it unchanged. -/
theorem exec_random_moves_noop_witness :
    exec_random_moves id 3 c4FinNode = some c4FinNode :=
  exec_random_moves_noop id c4FinNode 3 (Or.inl ⟨Color.White, rfl⟩)

/-! ## C1: the recursive averaging rule of `avg_score` -/

theorem avg_list_eq_mapM (l : List (Move × Option GameTreeNode)) (c : Color) :
    avg_list l c = (l.filterMap Prod.snd).mapM (fun n => avg_score n c) := by
  induction l with
  | nil => rfl
  | cons hd tl ih =>
    obtain ⟨m, ch⟩ := hd
    cases ch with
    | none => simpa [avg_list] using ih
    | some n =>
      simp only [avg_list, List.filterMap_cons, ih, List.mapM_cons]
      cases avg_score n c <;>
        cases (tl.filterMap Prod.snd).mapM (fun n => avg_score n c) <;> simp

theorem foldl_sum_count (qs : List ℚ) (d : ℚ) (k : ℕ) :
    qs.foldl (fun acc q => (acc.1 + q, acc.2 + 1)) (d, k) = (d + qs.sum, k + qs.length) := by
  induction qs generalizing d k with
  | nil => simp
  | cons q rest ih =>
    simp only [List.foldl_cons, ih, List.sum_cons, List.length_cons, Prod.mk.injEq]
    constructor
    · ring
    · omega

/-- The recursion of `avg_score` restated over the realized children: the
own differential if nothing is realized, otherwise the equal-weight mean of
the own differential and the children's recursive averages. -/
theorem avg_score_char (n : GameTreeNode) (c : Color) :
    avg_score n c =
      (match diff_score n.board c with
       | none => none
       | some d =>
         match (realizedChildren n).mapM (fun ch => avg_score ch c) with
         | none => none
         | some qs =>
           if qs = [] then some d
           else some ((d + qs.sum) / ((1 + qs.length : ℕ) : ℚ))) := by
  obtain ⟨b, t, s, children⟩ := n
  rw [avg_score]
  simp only [GameTreeNode.board, realizedChildren, GameTreeNode.children]
  rw [← avg_list_eq_mapM]
  cases hd : diff_score b c with
  | none => rfl
  | some d =>
    cases hl : avg_list children c with
    | none => rfl
    | some qs =>
      by_cases hq : qs = []
      · subst hq
        simp
      · have hne : qs.isEmpty = false := by
          simpa [List.isEmpty_iff] using hq
        have hcount : ¬((1 : ℕ) + qs.length = 0) := by omega
        simp [foldl_sum_count, hne, hq, hcount]

/-- C1.  A node with no realized child returns its own differential score
(the `Board::score` value with its ±100 terminal override, folded into the
signed difference for `color`); otherwise `avg_score` is the equal-weight
arithmetic mean of the node's own differential together with the
`avg_score` value of each realized child. -/
theorem avg_score_spec (n : GameTreeNode) (c : Color) :
    (realizedChildren n = [] → avg_score n c = diff_score n.board c) ∧
    (∀ (d : ℚ) (qs : List ℚ), diff_score n.board c = some d →
      (realizedChildren n).mapM (fun ch => avg_score ch c) = some qs → qs ≠ [] →
      avg_score n c = some ((d + qs.sum) / ((1 + qs.length : ℕ) : ℚ))) := by
  constructor
  · intro h
    rw [avg_score_char, h]
    cases diff_score n.board c <;> simp [List.mapM.loop]
  · intro d qs hd hqs hne
    rw [avg_score_char, hd, hqs]
    simp [hne]

/-- A pure leaf over a `+1` board. -/
def c1Leaf : GameTreeNode := GameTreeNode.mk kingsBoardP1 Color.Black 32 []

/-- A root with one realized leaf child. -/
def c1Node : GameTreeNode :=
  GameTreeNode.mk kingsBoard Color.White 64 [((⟨0, 0⟩, ⟨0, 1⟩), some c1Leaf)]

/-- Witness for C1 at concrete inputs: a pure leaf returns its own
differential, and a root with one realized leaf child averages `0` and `1`
with equal weights. -/
theorem avg_score_spec_witness :
    avg_score c1Leaf Color.White = diff_score c1Leaf.board Color.White ∧
    avg_score c1Node Color.White =
      some (((0 : ℚ) + [(1 : ℚ)].sum) / ((1 + [(1 : ℚ)].length : ℕ) : ℚ)) := by
  constructor
  · exact (avg_score_spec c1Leaf Color.White).1 rfl
  · apply (avg_score_spec c1Node Color.White).2 0 [(1 : ℚ)]
    · have h : kingsBoard.score = some (0, 0) := rfl
      norm_num [diff_score, c1Node, GameTreeNode.board, h]
    · have h : kingsBoardP1.score = some (1, 0) := rfl
      norm_num [realizedChildren, c1Node, GameTreeNode.children, GameTreeNode.board,
        List.mapM.loop, List.filterMap_cons, avg_score, avg_list, c1Leaf, diff_score, h]
    · simp

/-! ## C2: `avg_score` versus the claimed flat average -/

mutual

/-- Modelled from the spec's words ("a flat, unweighted average over the
node plus all its realized descendants"): the own differential scores of a
node followed by those of every realized descendant, flattened into one
list.  Used only to compare the claimed aggregation with the code's. -/
def node_diffs (n : GameTreeNode) (c : Color) : Option (List ℚ) :=
  match n with
  | .mk b _ _ children =>
    match diff_score b c, node_diffs_list children c with
    | some d, some ds => some (d :: ds)
    | _, _ => none

/-- The flattened differentials of the realized children of a children
list (helper of `node_diffs`). -/
def node_diffs_list : List (Move × Option GameTreeNode) → Color → Option (List ℚ)
  | [], _ => some []
  | (_, none) :: rest, c => node_diffs_list rest c
  | (_, some n) :: rest, c =>
    match node_diffs n c, node_diffs_list rest c with
    | some ds, some rest' => some (ds ++ rest')
    | _, _ => none

end

/-- Modelled from the spec's words: the flat, unweighted arithmetic mean of
the own differential scores of a node and of every realized descendant,
each counted exactly once. -/
def specFlatAvg (n : GameTreeNode) (c : Color) : Option ℚ :=
  match node_diffs n c with
  | none => none
  | some ds => some (ds.sum / (ds.length : ℚ))

/-- A realized grandchild with differential `+1`. -/
def c2gc : GameTreeNode := GameTreeNode.mk kingsBoardP1 Color.White 16 []

/-- A realized leaf child with differential `+1`. -/
def c2childA : GameTreeNode := GameTreeNode.mk kingsBoardP1 Color.Black 32 []

/-- A realized child with differential `+2` and one realized grandchild. -/
def c2childB : GameTreeNode :=
  GameTreeNode.mk kingsBoardP2 Color.Black 32 [((⟨0, 0⟩, ⟨1, 1⟩), some c2gc)]

/-- A root with differential `0` whose realized descendants have
differentials `1`, `2`, `1`. -/
def c2ex : GameTreeNode :=
  GameTreeNode.mk kingsBoard Color.White 64
    [((⟨0, 0⟩, ⟨0, 1⟩), some c2childA), ((⟨0, 0⟩, ⟨1, 0⟩), some c2childB)]

/-- C2 counterexample: on `c2ex` the code computes
`(0 + 1 + (2 + 1)/2) / 3 = 5/6` — the child's subtree is averaged before
entering the root's mean — while the flat, unweighted mean of the four
node differentials is `(0 + 1 + 2 + 1) / 4 = 1`. -/
theorem avg_score_not_flat :
    avg_score c2ex Color.White ≠ specFlatAvg c2ex Color.White := by
  have h0 : kingsBoard.score = some (0, 0) := rfl
  have h1 : kingsBoardP1.score = some (1, 0) := rfl
  have h2 : kingsBoardP2.score = some (2, 0) := rfl
  have ha : avg_score c2ex Color.White = some (5 / 6) := by
    norm_num [c2ex, c2childA, c2childB, c2gc, avg_score, avg_list, diff_score, h0, h1, h2]
  have hb : specFlatAvg c2ex Color.White = some 1 := by
    norm_num [c2ex, c2childA, c2childB, c2gc, specFlatAvg, node_diffs, node_diffs_list,
      diff_score, h0, h1, h2]
  rw [ha, hb]
  intro h
  norm_num at h

theorem no_realized_avg_list (l : List (Move × Option GameTreeNode)) (c : Color)
    (h : l.filterMap Prod.snd = []) : avg_list l c = some [] := by
  induction l with
  | nil => rfl
  | cons hd tl ih =>
    obtain ⟨m, ch⟩ := hd
    cases ch with
    | none =>
      simp only [List.filterMap_cons] at h
      simp [avg_list, ih h]
    | some n => simp [List.filterMap_cons] at h

theorem no_realized_node_diffs_list (l : List (Move × Option GameTreeNode)) (c : Color)
    (h : l.filterMap Prod.snd = []) : node_diffs_list l c = some [] := by
  induction l with
  | nil => rfl
  | cons hd tl ih =>
    obtain ⟨m, ch⟩ := hd
    cases ch with
    | none =>
      simp only [List.filterMap_cons] at h
      simp [node_diffs_list, ih h]
    | some n => simp [List.filterMap_cons] at h

theorem leaf_avg (ch : GameTreeNode) (c : Color) (h : realizedChildren ch = []) :
    avg_score ch c = diff_score ch.board c := by
  rw [avg_score_char, h]
  cases diff_score ch.board c <;> simp [List.mapM.loop]

theorem leaf_node_diffs (ch : GameTreeNode) (c : Color) (h : realizedChildren ch = []) :
    node_diffs ch c = (diff_score ch.board c).map (fun d => [d]) := by
  obtain ⟨b, t, s, children⟩ := ch
  have h' : children.filterMap Prod.snd = [] := h
  rw [node_diffs]
  rw [no_realized_node_diffs_list children c h']
  cases hdc : diff_score b c <;> simp [GameTreeNode.board, hdc]

theorem leaves_node_diffs_list (l : List (Move × Option GameTreeNode)) (c : Color)
    (h : ∀ ch ∈ l.filterMap Prod.snd, realizedChildren ch = []) :
    node_diffs_list l c = avg_list l c := by
  induction l with
  | nil => rfl
  | cons hd tl ih =>
    obtain ⟨m, ch⟩ := hd
    cases ch with
    | none =>
      simp only [List.filterMap_cons] at h
      simp [node_diffs_list, avg_list, ih h]
    | some n =>
      simp only [List.filterMap_cons] at h
      have hn : realizedChildren n = [] := h n (List.mem_cons_self n _)
      have htl : ∀ ch ∈ tl.filterMap Prod.snd, realizedChildren ch = [] :=
        fun ch hch => h ch (List.mem_cons_of_mem n hch)
      rw [node_diffs_list, avg_list, leaf_node_diffs n c hn, leaf_avg n c hn, ih htl]
      cases diff_score n.board c <;> cases avg_list tl c <;> simp

/-- C2 amended: `avg_score` is the recursive average-of-averages of C1, not
a flat mean; it coincides with the flat, unweighted mean over the node and
its realized descendants in the special case in which every realized child
is itself a pure leaf (so no subtree is pre-averaged before entering the
root's mean). -/
theorem avg_score_flat_on_leaf_children (n : GameTreeNode) (c : Color)
    (h : ∀ ch ∈ realizedChildren n, realizedChildren ch = []) :
    avg_score n c = specFlatAvg n c := by
  obtain ⟨b, t, s, children⟩ := n
  have h' : ∀ ch ∈ children.filterMap Prod.snd, realizedChildren ch = [] := h
  rw [avg_score, specFlatAvg, node_diffs, leaves_node_diffs_list children c h']
  cases hd : diff_score b c with
  | none => rfl
  | some d =>
    cases hl : avg_list children c with
    | none => rfl
    | some qs =>
      by_cases hq : qs = []
      · subst hq
        norm_num
      · have hne : qs.isEmpty = false := by
          simpa [List.isEmpty_iff] using hq
        have hcount : ¬((1 : ℕ) + qs.length = 0) := by omega
        simp only [hne, foldl_sum_count, hcount, Bool.false_eq_true, if_false, List.sum_cons,
          List.length_cons]
        congr 1
        push_cast
        ring

/-- A realized leaf child used by the amended-C2 witness. -/
def c2witChild : GameTreeNode := GameTreeNode.mk kingsBoardP1 Color.Black 32 []

/-- A root all of whose realized children are pure leaves. -/
def c2wit : GameTreeNode :=
  GameTreeNode.mk kingsBoard Color.White 64 [((⟨0, 0⟩, ⟨0, 1⟩), some c2witChild)]

/-- Witness for the amended C2 at a concrete input. -/
theorem avg_score_flat_on_leaf_children_witness :
    avg_score c2wit Color.White = specFlatAvg c2wit Color.White := by
  apply avg_score_flat_on_leaf_children
  intro ch hch
  have hr : realizedChildren c2wit = [c2witChild] := rfl
  rw [hr] at hch
  rw [List.mem_singleton] at hch
  subst hch
  rfl

/-! ## C8: the selection of `next_move` -/

theorem piece_value_le (p : Piece) : p.value ≤ 9 := by
  cases p <;> simp [Piece.value]

theorem fold_material_bound (l : List ColorPiece) (a b : Nat) :
    ((l.foldl (fun acc cp =>
      match cp.1 with
      | Color.Black => (acc.1, acc.2 + cp.2.value)
      | Color.White => (acc.1 + cp.2.value, acc.2)) (a, b)).1 ≤ a + 9 * l.length) ∧
    ((l.foldl (fun acc cp =>
      match cp.1 with
      | Color.Black => (acc.1, acc.2 + cp.2.value)
      | Color.White => (acc.1 + cp.2.value, acc.2)) (a, b)).2 ≤ b + 9 * l.length) := by
  induction l generalizing a b with
  | nil => simp
  | cons cp tl ih =>
    obtain ⟨c, p⟩ := cp
    have hv : p.value ≤ 9 := piece_value_le p
    cases c with
    | Black =>
      have h2 := ih a (b + p.value)
      simp only [List.foldl_cons, List.length_cons]
      constructor
      · exact le_trans h2.1 (by omega)
      · exact le_trans h2.2 (by omega)
    | White =>
      have h2 := ih (a + p.value) b
      simp only [List.foldl_cons, List.length_cons]
      constructor
      · exact le_trans h2.1 (by omega)
      · exact le_trans h2.2 (by omega)

theorem allOccupants_length (b : Board) : (Board.allOccupants b).length = 64 := rfl

theorem score_bound (b : Board) (w bl : Nat) (h : b.score = some (w, bl)) :
    w ≤ 576 ∧ bl ≤ 576 := by
  rw [Board.score] at h
  cases hs : b.status with
  | none =>
    rw [hs] at h
    simp at h
  | some s =>
    rw [hs] at h
    cases s with
    | InPlay =>
      simp only [Option.some.injEq] at h
      have hb := fold_material_bound b.allOccupants 0 0
      rw [allOccupants_length] at hb
      rw [h] at hb
      omega
    | Finished win =>
      cases win <;> simp only [Option.some.injEq, Prod.mk.injEq] at h <;> omega

theorem diff_score_gt (b : Board) (c : Color) (d : ℚ) (h : diff_score b c = some d) :
    (-1000 : ℚ) < d := by
  rw [diff_score] at h
  cases hs : b.score with
  | none =>
    rw [hs] at h
    simp at h
  | some sc =>
    rw [hs] at h
    obtain ⟨w, bl⟩ := sc
    have hb := score_bound b w bl hs
    have hw : (w : ℚ) ≤ 576 := by exact_mod_cast hb.1
    have hbl : (bl : ℚ) ≤ 576 := by exact_mod_cast hb.2
    have hw0 : (0 : ℚ) ≤ (w : ℚ) := by positivity
    have hbl0 : (0 : ℚ) ≤ (bl : ℚ) := by positivity
    cases c <;> simp only [Option.some.injEq] at h <;> subst h <;> linarith

theorem sum_ge_neg (qs : List ℚ) (h : ∀ q ∈ qs, (-1000 : ℚ) < q) :
    (-1000 : ℚ) * qs.length ≤ qs.sum := by
  induction qs with
  | nil => simp
  | cons q tl ih =>
    have hq := h q (List.mem_cons_self q tl)
    have htl := ih (fun x hx => h x (List.mem_cons_of_mem q hx))
    simp only [List.sum_cons, List.length_cons]
    push_cast
    linarith

mutual

theorem avg_score_gt (n : GameTreeNode) (c : Color) (q : ℚ)
    (h : avg_score n c = some q) : (-1000 : ℚ) < q := by
  match n with
  | .mk b t s children =>
    rw [avg_score] at h
    cases hd : diff_score b c with
    | none =>
      rw [hd] at h
      simp at h
    | some d =>
      rw [hd] at h
      have hdgt := diff_score_gt b c d hd
      cases hl : avg_list children c with
      | none =>
        rw [hl] at h
        simp at h
      | some qs =>
        rw [hl] at h
        have hqs := avg_list_gt children c qs hl
        by_cases hq : qs.isEmpty
        · simp only [hq, if_true] at h
          cases h
          exact hdgt
        · have hq' : qs ≠ [] := fun hh => hq (by simp [hh])
          have hcount : ¬((1 : ℕ) + qs.length = 0) := by omega
          simp only [hq, Bool.false_eq_true, if_false, foldl_sum_count, hcount,
            Option.some.injEq] at h
          subst h
          have hsum := sum_ge_neg qs hqs
          have hpos : (0 : ℚ) < ((1 + qs.length : ℕ) : ℚ) := by positivity
          rw [lt_div_iff₀ hpos]
          push_cast
          linarith

theorem avg_list_gt (l : List (Move × Option GameTreeNode)) (c : Color) (qs : List ℚ)
    (h : avg_list l c = some qs) : ∀ q ∈ qs, (-1000 : ℚ) < q := by
  match l with
  | [] =>
    rw [avg_list] at h
    cases h
    simp
  | (m, none) :: rest =>
    rw [avg_list] at h
    exact avg_list_gt rest c qs h
  | (m, some n) :: rest =>
    rw [avg_list] at h
    cases ha : avg_score n c with
    | none =>
      rw [ha] at h
      simp at h
    | some q0 =>
      rw [ha] at h
      cases hr : avg_list rest c with
      | none =>
        rw [hr] at h
        simp at h
      | some qs0 =>
        rw [hr] at h
        simp only [Option.some.injEq] at h
        subst h
        intro q hq
        rcases List.mem_cons.mp hq with hq | hq
        · rw [hq]
          exact avg_score_gt n c q0 ha
        · exact avg_list_gt rest c qs0 hr q hq

end

theorem select_loop_skip (c : Color) (l : List (Move × Option GameTreeNode)) (ma : ℚ)
    (res : Option Move) (h : l.filterMap Prod.snd = []) :
    select_loop c l ma res = some (ma, res) := by
  induction l generalizing ma res with
  | nil => rfl
  | cons hd tl ih =>
    obtain ⟨m, ch⟩ := hd
    cases ch with
    | none =>
      simp only [List.filterMap_cons] at h
      rw [select_loop]
      exact ih ma res h
    | some n => simp [List.filterMap_cons] at h

theorem select_loop_keeps (c : Color) (l : List (Move × Option GameTreeNode)) :
    ∀ (ma : ℚ) (m : Move) (p : ℚ × Option Move),
      select_loop c l ma (some m) = some p → p.2.isSome = true := by
  induction l with
  | nil =>
    intro ma m p h
    rw [select_loop] at h
    cases h
    simp
  | cons hd tl ih =>
    intro ma m p h
    obtain ⟨mv, ch⟩ := hd
    cases ch with
    | none =>
      rw [select_loop] at h
      exact ih ma m p h
    | some n =>
      rw [select_loop] at h
      cases ha : avg_score n c with
      | none =>
        rw [ha] at h
        simp at h
      | some q =>
        simp only [ha] at h
        by_cases hlt : ma < q
        · rw [if_pos hlt] at h
          exact ih q mv p h
        · rw [if_neg hlt] at h
          exact ih ma m p h

theorem select_loop_found (c : Color) :
    ∀ (l : List (Move × Option GameTreeNode)), l.filterMap Prod.snd ≠ [] →
      ∀ p : ℚ × Option Move, select_loop c l (-1000) none = some p → p.2.isSome = true := by
  intro l
  induction l with
  | nil =>
    intro h
    simp at h
  | cons hd tl ih =>
    intro h p hp
    obtain ⟨mv, ch⟩ := hd
    cases ch with
    | none =>
      simp only [List.filterMap_cons] at h
      rw [select_loop] at hp
      exact ih h p hp
    | some n =>
      rw [select_loop] at hp
      cases ha : avg_score n c with
      | none =>
        rw [ha] at hp
        simp at hp
      | some q =>
        simp only [ha] at hp
        have hgt : (-1000 : ℚ) < q := avg_score_gt n c q ha
        rw [if_pos hgt] at hp
        exact select_loop_keeps c tl q mv p hp

theorem select_loop_mem (c : Color) :
    ∀ (l : List (Move × Option GameTreeNode)) (ma : ℚ) (res : Option Move)
      (p : ℚ × Option Move),
      select_loop c l ma res = some p → ∀ m : Move, p.2 = some m →
        res = some m ∨ m ∈ l.map Prod.fst := by
  intro l
  induction l with
  | nil =>
    intro ma res p h m hm
    rw [select_loop] at h
    cases h
    exact Or.inl hm
  | cons hd tl ih =>
    intro ma res p h m hm
    obtain ⟨mv, ch⟩ := hd
    cases ch with
    | none =>
      rw [select_loop] at h
      rcases ih ma res p h m hm with h' | h'
      · exact Or.inl h'
      · exact Or.inr (List.mem_cons_of_mem _ h')
    | some n =>
      rw [select_loop] at h
      cases ha : avg_score n c with
      | none =>
        rw [ha] at h
        simp at h
      | some q =>
        simp only [ha] at h
        by_cases hlt : ma < q
        · rw [if_pos hlt] at h
          rcases ih q (some mv) p h m hm with h' | h'
          · injection h' with h''
            subst h''
            simp
          · exact Or.inr (List.mem_cons_of_mem _ h')
        · rw [if_neg hlt] at h
          rcases ih ma res p h m hm with h' | h'
          · exact Or.inl h'
          · exact Or.inr (List.mem_cons_of_mem _ h')

/-- C8.  Provided the search did not panic (`next_move` returned a value
`r`), `r` is "no move" exactly when no root child of the expanded tree was
realized: every realized child has an `avg_score` strictly above the
starting threshold `-1000`, so one realized child suffices for a move to be
returned. -/
theorem next_move_none_iff (shuffle : List Move → List Move) (b : Board) (turn : Color)
    (t : GameTreeNode) (r : Option Move)
    (ht : rootTree shuffle b turn = some t)
    (h : next_move shuffle b turn = some r) :
    r = none ↔ realizedChildren t = [] := by
  simp only [next_move, ht] at h
  cases hs : select_loop turn t.children (-1000) none with
  | none =>
    rw [hs] at h
    simp at h
  | some p =>
    rw [hs] at h
    simp only [Option.some.injEq] at h
    subst h
    constructor
    · intro hr
      by_contra hne
      simp only [realizedChildren] at hne
      have hfound := select_loop_found turn t.children hne p hs
      rw [hr] at hfound
      simp at hfound
    · intro hreal
      simp only [realizedChildren] at hreal
      have hskip := select_loop_skip turn t.children (-1000) none hreal
      rw [hskip] at hs
      cases hs
      rfl

/-- The (trivial) root tree over a finished board with Black to move. -/
def c8Tree : GameTreeNode := GameTreeNode.mk lonelyKingBoard Color.Black 64 []

/-- Witness for C8 at a concrete input: on a finished board with no black
pieces the expansion realizes nothing and `next_move` returns "no move". -/
theorem next_move_none_iff_witness : realizedChildren c8Tree = [] := by
  have ht : rootTree id lonelyKingBoard Color.Black = some c8Tree := rfl
  have h : next_move id lonelyKingBoard Color.Black = some none := rfl
  exact (next_move_none_iff id lonelyKingBoard Color.Black c8Tree none ht h).mp rfl

/-! ## C3: `next_move` returns only legal moves -/

theorem exec_children_keys (f : GameTreeNode → Option GameTreeNode)
    (shuffle : List Move → List Move) (b : Board) (color : Color) (runs : Nat) :
    ∀ (l l' : List (Move × Option GameTreeNode)),
      exec_children f shuffle b color runs l = some l' →
      l'.map Prod.fst = l.map Prod.fst := by
  intro l
  induction l with
  | nil =>
    intro l' h
    rw [exec_children] at h
    cases h
    rfl
  | cons hd tl ih =>
    intro l' h
    obtain ⟨m, ch⟩ := hd
    rw [exec_children] at h
    cases hn : GameTreeNode.new shuffle (b.exec_move m.1 m.2) color runs with
    | none =>
      rw [hn] at h
      simp at h
    | some child =>
      simp only [hn] at h
      cases hf : f child with
      | none =>
        rw [hf] at h
        simp at h
      | some expanded =>
        simp only [hf] at h
        cases hr : exec_children f shuffle b color runs tl with
        | none =>
          rw [hr] at h
          simp at h
        | some rest' =>
          simp only [hr, Option.some.injEq] at h
          subst h
          simp [ih rest' hr]

theorem exec_keys (shuffle : List Move → List Move) (d : Nat) (n n' : GameTreeNode)
    (h : exec_random_moves shuffle d n = some n') :
    n'.children.map Prod.fst = n.children.map Prod.fst := by
  cases d with
  | zero =>
    have e0 : exec_random_moves shuffle 0 n =
        (match n.board.status with
         | none => none
         | some (GameStatus.Finished _) => some n
         | some GameStatus.InPlay => none) := rfl
    rw [e0] at h
    cases hs : n.board.status with
    | none =>
      rw [hs] at h
      simp at h
    | some s =>
      rw [hs] at h
      cases s with
      | InPlay => simp at h
      | Finished w =>
        simp only [Option.some.injEq] at h
        subst h
        rfl
  | succ nd =>
    rw [exec_random_moves] at h
    cases hs : n.board.status with
    | none =>
      rw [hs] at h
      simp at h
    | some s =>
      rw [hs] at h
      cases s with
      | Finished w =>
        simp only [Option.some.injEq] at h
        subst h
        rfl
      | InPlay =>
        by_cases hnd : nd = 0
        · rw [if_pos hnd] at h
          simp only [Option.some.injEq] at h
          subst h
          rfl
        · rw [if_neg hnd] at h
          cases hec : exec_children (exec_random_moves shuffle nd) shuffle n.board
              n.turn.other (n.size / 2) n.children with
          | none =>
            rw [hec] at h
            simp at h
          | some children' =>
            simp only [hec, Option.some.injEq] at h
            subst h
            simpa [GameTreeNode.children] using
              exec_children_keys (exec_random_moves shuffle nd) shuffle n.board
                n.turn.other (n.size / 2) n.children children' hec

/-- C3.  Any move returned by `next_move` is one of the legal moves of the
side to move in the root position: the root's sampled children are drawn
from a shuffled copy of `legal_moves`, expansion only fills in child
subtrees without touching the keys, and the selection loop only ever
returns a key. -/
theorem next_move_legal (shuffle : List Move → List Move)
    (hsh : ∀ l : List Move, (shuffle l).Perm l) (b : Board) (turn : Color)
    (m : Move) (lm : List Move) (hlm : b.legal_moves turn = some lm)
    (h : next_move shuffle b turn = some (some m)) : m ∈ lm := by
  cases ht : rootTree shuffle b turn with
  | none =>
    rw [next_move, ht] at h
    simp at h
  | some t =>
    simp only [next_move, ht] at h
    have hnew : GameTreeNode.new shuffle b turn 64 =
        some (GameTreeNode.mk b turn 64 (((shuffle lm).take 64).map (fun mv => (mv, none)))) := by
      rw [GameTreeNode.new, hlm]
    have hroot : rootTree shuffle b turn = some t := ht
    simp only [rootTree, hnew] at hroot
    have hkeys := exec_keys shuffle 5 _ t hroot
    cases hs : select_loop turn t.children (-1000) none with
    | none =>
      rw [hs] at h
      simp at h
    | some p =>
      simp only [hs, Option.some.injEq] at h
      rcases select_loop_mem turn t.children (-1000) none p hs m h with h' | h'
      · simp at h'
      · rw [hkeys] at h'
        simp only [GameTreeNode.children, List.map_map] at h'
        have hcomp :
            List.map (Prod.fst ∘ fun mv : Move => (mv, (none : Option GameTreeNode)))
              ((shuffle lm).take 64) = (shuffle lm).take 64 := by
          rw [show (Prod.fst ∘ fun mv : Move => (mv, (none : Option GameTreeNode))) = id from
            rfl, List.map_id]
        have h1 : m ∈ (shuffle lm).take 64 := by
          rw [hcomp] at h'
          exact h'
        have h2 : m ∈ shuffle lm := List.take_subset 64 _ h1
        exact (hsh lm).mem_iff.mp h2

/-- The single realized child of the C3 witness tree: the black king has
been captured, so the child is never expanded further; its two sampled
moves are black's pawn replies b7–b6 and b7–b5. -/
def pinChildNode : GameTreeNode :=
  GameTreeNode.mk (pinBoard.exec_move ⟨1, 5⟩ ⟨0, 6⟩) Color.Black 32
    [((⟨1, 6⟩, ⟨1, 5⟩), none), ((⟨1, 6⟩, ⟨1, 4⟩), none)]

/-- The expanded root tree `next_move` builds on `pinBoard` (identity
shuffle): one sampled child, realized. -/
def pinTree : GameTreeNode :=
  GameTreeNode.mk pinBoard Color.White 64 [((⟨1, 5⟩, ⟨0, 6⟩), some pinChildNode)]

/-- Witness for C3 at a concrete input: on `pinBoard` White's only legal
move is the pawn capture of the black king, and `next_move` returns it. -/
theorem next_move_legal_witness :
    pinBoard.legal_moves Color.White = some [(⟨1, 5⟩, ⟨0, 6⟩)] ∧
    next_move id pinBoard Color.White = some (some (⟨1, 5⟩, ⟨0, 6⟩)) ∧
    ((⟨1, 5⟩, ⟨0, 6⟩) : Move) ∈ [((⟨1, 5⟩, ⟨0, 6⟩) : Move)] := by
  have hlm : pinBoard.legal_moves Color.White = some [(⟨1, 5⟩, ⟨0, 6⟩)] := by decide
  have ht : rootTree id pinBoard Color.White = some pinTree := rfl
  have h2 : next_move id pinBoard Color.White = some (some (⟨1, 5⟩, ⟨0, 6⟩)) := by
    have hsc : (pinBoard.exec_move ⟨1, 5⟩ ⟨0, 6⟩).score = some (100, 0) := rfl
    have havg : avg_score pinChildNode Color.White = some 100 := by
      norm_num [avg_score, pinChildNode, avg_list, diff_score, hsc]
    simp only [next_move, ht]
    simp [pinTree, select_loop, havg]
    norm_num
  exact ⟨hlm, h2, next_move_legal id (fun l => List.Perm.refl l) pinBoard Color.White
    (⟨1, 5⟩, ⟨0, 6⟩) [(⟨1, 5⟩, ⟨0, 6⟩)] hlm h2⟩
